import Mathlib

/-!
Verification of the console-statement stripper (`remove_console_logs.py`).

Source text is modelled as a `List Char`; the script's `content.split('\n')`
and `'\n'.join(...)` become `splitLines` / `joinLines`, and each line is a
`List Char`.  The two passes (`count_console_statements`,
`remove_console_statements`) are translated as structurally recursive
scanners over the line list, with the Python `while` loops' skip state
(the parenthesis `depth` counter) carried as an explicit `Int` argument.
-/

set_option autoImplicit false

namespace RCL

/-- A line of source text (the script works line-by-line on the result of
`content.split('\n')`). -/
abbrev Line := List Char

/-- Characters matched by the Python regex class `\s` on `str` patterns
(Unicode whitespace, as used by `re.search` in the script). -/
def isPySpace (c : Char) : Bool :=
  [' ', '\t', '\n', '\x0b', '\x0c', '\r', '\x1c', '\x1d', '\x1e', '\x1f',
   '\x85', '\xa0', '\u1680', '\u2028', '\u2029', '\u202f', '\u205f',
   '\u3000'].contains c
  || (decide (0x2000 ≤ c.toNat) && decide (c.toNat ≤ 0x200a))

/-- The five recognized call names of the script's regex alternation
`(log|error|warn|debug|info)`. -/
def consoleNames : List Line :=
  ["log".toList, "error".toList, "warn".toList, "debug".toList, "info".toList]

/-- Embedding of `re.search(r'^\s*console\.(log|error|warn|debug|info)\s*\(', line)`
returning whether the (start-anchored) pattern matches: leading whitespace,
the literal `console.`, one of the five names, optional whitespace, then `(`. -/
def isConsoleStart (l : Line) : Bool :=
  let r := l.dropWhile isPySpace
  ("console.".toList.isPrefixOf r) &&
    consoleNames.any (fun n =>
      n.isPrefixOf (r.drop 8) &&
        ((((r.drop 8).drop n.length).dropWhile isPySpace).head? == some '('))

/-- The quantity `line.count('(') - line.count(')')` added to `depth` for
each consumed line. -/
def lineDelta (l : Line) : Int := (l.count '(' : Int) - (l.count ')' : Int)

/-- Scanner for `count_console_statements` (`remove_console_logs.py`,
lines 33-52).  The state `d` is the `depth` of the inner
`while i < len(lines) and depth > 0` loop; `d = 0` is ordinary scanning. -/
def countGo : Int → List Line → Nat
  | _, [] => 0
  | d, l :: rest =>
    if d > 0 then countGo (d + lineDelta l) rest
    else if isConsoleStart l then
      if l.contains '(' && !(l.contains ')') then
        1 + countGo (lineDelta l) rest
      else
        1 + countGo 0 rest
    else countGo 0 rest

/-- Scanner for `remove_console_statements` (`remove_console_logs.py`,
lines 54-87): returns (`new_lines`, `removed_count`).  The state `d` is the
`depth` of the inner skip loop; `d = 0` is ordinary scanning. -/
def removeGo : Int → List Line → List Line × Nat
  | _, [] => ([], 0)
  | d, l :: rest =>
    if d > 0 then removeGo (d + lineDelta l) rest
    else if isConsoleStart l then
      if l.contains ';' || (l.contains ')' && decide (l.count '(' ≤ l.count ')')) then
        ((removeGo 0 rest).1, (removeGo 0 rest).2 + 1)
      else
        ((removeGo (lineDelta l) rest).1, (removeGo (lineDelta l) rest).2 + 1)
    else
      (l :: (removeGo 0 rest).1, (removeGo 0 rest).2)

/-- Embedding of Python `content.split('\n')` (keeps empty pieces; yields
`[""]` on the empty string). -/
def splitLines : List Char → List Line
  | [] => [[]]
  | c :: cs =>
    if c = '\n' then [] :: splitLines cs
    else (c :: (splitLines cs).headI) :: (splitLines cs).tail

/-- Embedding of Python `'\n'.join(lines)`. -/
def joinLines : List Line → List Char
  | [] => []
  | [l] => l
  | l :: l2 :: ls => l ++ '\n' :: joinLines (l2 :: ls)

/-- The counting pass on a line list. -/
def countLines (lines : List Line) : Nat := countGo 0 lines

/-- The removal pass on a line list. -/
def removeLines (lines : List Line) : List Line × Nat := removeGo 0 lines

/-- `count_console_statements(content)` of the script. -/
def count_console_statements (content : List Char) : Nat :=
  countLines (splitLines content)

/-- `remove_console_statements(content)` of the script: the rewritten
content together with `removed_count`. -/
def remove_console_statements (content : List Char) : List Char × Nat :=
  (joinLines (removeLines (splitLines content)).1,
   (removeLines (splitLines content)).2)

/-- Model of one file as `process_file` sees it: the outcome of the read
(`none` when `open`/`read` raises) and whether a subsequent write raises. -/
structure FileModel where
  readResult : Option (List Char)
  writeFails : Bool

/-- Embedding of `process_file` (`remove_console_logs.py`, lines 89-115),
with the file name dropped: returns the reported
(`original_count`, `removed_count`) pair — `(0, -1)` when an exception is
caught — together with the content written back (`none` when no write
happens). -/
def process_file (f : FileModel) : Int × Int × Option (List Char) :=
  match f.readResult with
  | none => (0, -1, none)
  | some content =>
    let oc := count_console_statements content
    if oc = 0 then (0, 0, none)
    else if f.writeFails then (0, -1, none)
    else ((oc : Int), ((remove_console_statements content).2 : Int),
          some (remove_console_statements content).1)

/-- Disk content after `process_file`: the written content when a write
succeeded, the original content when no write was attempted. -/
def diskAfter (old : List Char) (w : Option (List Char)) : List Char :=
  w.getD old

/-- The three per-file report lines printed by `main`
(`remove_console_logs.py`, lines 130-137). -/
inductive Report
  | cleaned
  | noStatements
  | error
deriving DecidableEq

/-- Branch selection of `main`'s per-file reporting on the returned pair:
`removed_count > 0`, else `removed_count == 0 and original_count == 0`,
else the error line. -/
def classify (oc rc : Int) : Report :=
  if rc > 0 then Report.cleaned
  else if rc = 0 ∧ oc = 0 then Report.noStatements
  else Report.error

/-- One iteration of `main`'s loop over files (`remove_console_logs.py`,
lines 127-137): the accumulator is (`results`, `total_removed`), appended
to exactly when `removed_count > 0`. -/
def batchStep (acc : List (Int × Int) × Int) (f : FileModel) :
    List (Int × Int) × Int :=
  let r := process_file f
  if r.2.1 > 0 then (acc.1 ++ [(r.1, r.2.1)], acc.2 + r.2.1) else acc

/-- The aggregation performed by `main` over the file batch: the `results`
list and `total_removed`. -/
def runBatch (files : List FileModel) : List (Int × Int) × Int :=
  files.foldl batchStep ([], 0)

/-- Every character of `s` is whitespace. -/
def allSpaces (s : Line) : Prop := ∀ c ∈ s, isPySpace c = true

/-- Declarative reading of the spec's Statement Detector contract with the
`console.` qualifier made explicit: ignoring leading whitespace the line is
`console.` followed by one of the five names, optional whitespace and an
opening parenthesis. -/
def specConsoleOpen (l : Line) : Prop :=
  ∃ pre n mid rest, n ∈ consoleNames ∧ allSpaces pre ∧ allSpaces mid ∧
    l = pre ++ "console.".toList ++ n ++ mid ++ '(' :: rest

/-- Literal reading of the claimed Detector contract: ignoring leading
whitespace the line is one of the five recognized identifiers, optional
whitespace, then an opening parenthesis (no mention of a qualifier). -/
def specBareOpen (l : Line) : Prop :=
  ∃ pre n mid rest, n ∈ consoleNames ∧ allSpaces pre ∧ allSpaces mid ∧
    l = pre ++ n ++ mid ++ '(' :: rest

/-- Span consumption as worded by the spec: subsequent lines are consumed,
each adding its own open-count minus close-count to the depth, until the
depth is no longer positive or the input is exhausted (end-of-file
degradation). -/
def specConsume : List Line → Int → List Line
  | [], _ => []
  | l :: rest, d => if d ≤ 0 then l :: rest else specConsume rest (d + lineDelta l)

/-- Lines remaining after the span resolved by the spec's rule for a
detected opening line `l`: single-line when `l` contains a `;` anywhere or
its open-paren count is at most its close-paren count, otherwise
depth-consumption of the following lines. -/
def specSpanRest (l : Line) (rest : List Line) : List Line :=
  if l.contains ';' || decide (l.count '(' ≤ l.count ')') then rest
  else specConsume rest (lineDelta l)

/-- A detector-matched line is classified the same way by the Counter's
multi-line test (`'(' in line and ')' not in line`) and the Remover's
single-line test (negated). -/
abbrev agreeLine (l : Line) : Prop :=
  (l.contains '(' && !(l.contains ')')) =
    !(l.contains ';' || (l.contains ')' && decide (l.count '(' ≤ l.count ')')))

theorem splitLines_ne_nil (cs : List Char) : splitLines cs ≠ [] := by
  cases cs with
  | nil => simp [splitLines]
  | cons c cs => by_cases h : c = '\n' <;> simp [splitLines, h]

theorem no_newline_of_mem_splitLines {cs : List Char} {l : Line}
    (h : l ∈ splitLines cs) : '\n' ∉ l := by
  induction cs generalizing l with
  | nil =>
    simp [splitLines] at h
    subst h; simp
  | cons c cs ih =>
    by_cases hc : c = '\n'
    · simp only [splitLines, if_pos hc, List.mem_cons] at h
      rcases h with h | h
      · subst h; simp
      · exact ih h
    · cases hcs : splitLines cs with
      | nil => exact absurd hcs (splitLines_ne_nil cs)
      | cons a t =>
        simp only [splitLines, if_neg hc, hcs, List.headI, List.tail,
          List.mem_cons] at h
        rcases h with h | h
        · subst h
          intro hm
          rcases List.mem_cons.mp hm with e | hm
          · exact hc e.symm
          · exact ih (hcs ▸ List.mem_cons_self a t) hm
        · exact ih (hcs ▸ List.mem_cons_of_mem a h)

theorem splitLines_of_no_newline {cs : List Char} (h : '\n' ∉ cs) :
    splitLines cs = [cs] := by
  induction cs with
  | nil => rfl
  | cons c cs ih =>
    have hc : ¬ c = '\n' := fun e => h (by rw [← e]; exact List.mem_cons_self c cs)
    have h2 : '\n' ∉ cs := fun m => h (List.mem_cons_of_mem c m)
    simp [splitLines, hc, ih h2]

theorem splitLines_append_newline {l : Line} (cs : List Char) (h : '\n' ∉ l) :
    splitLines (l ++ '\n' :: cs) = l :: splitLines cs := by
  induction l with
  | nil => simp [splitLines]
  | cons c l ih =>
    have hc : ¬ c = '\n' := fun e => h (by rw [← e]; exact List.mem_cons_self c l)
    have h2 : '\n' ∉ l := fun m => h (List.mem_cons_of_mem c m)
    simp [splitLines, hc, ih h2]

theorem splitLines_joinLines {ls : List Line} (hne : ls ≠ [])
    (h : ∀ l ∈ ls, '\n' ∉ l) : splitLines (joinLines ls) = ls := by
  induction ls with
  | nil => exact absurd rfl hne
  | cons l ls ih =>
    cases ls with
    | nil =>
      simp only [joinLines]
      exact splitLines_of_no_newline (h l (List.mem_cons_self _ _))
    | cons l2 ls2 =>
      have h1 : '\n' ∉ l := h l (List.mem_cons_self _ _)
      simp only [joinLines]
      rw [splitLines_append_newline _ h1,
        ih (by simp) (fun x hx => h x (List.mem_cons_of_mem l hx))]

theorem joinLines_splitLines (cs : List Char) : joinLines (splitLines cs) = cs := by
  induction cs with
  | nil => rfl
  | cons c cs ih =>
    cases hcs : splitLines cs with
    | nil => exact absurd hcs (splitLines_ne_nil cs)
    | cons a t =>
      by_cases hc : c = '\n'
      · subst hc
        simp only [splitLines, if_pos rfl, hcs, joinLines]
        rw [← hcs] at *
        simp [ih]
      · cases t with
        | nil =>
          simp only [splitLines, if_neg hc, hcs, List.headI, List.tail, joinLines]
          rw [hcs] at ih
          simp only [joinLines] at ih
          rw [ih]
        | cons b t2 =>
          simp only [splitLines, if_neg hc, hcs, List.headI, List.tail, joinLines]
          rw [hcs] at ih
          simp only [joinLines] at ih
          simp [ih]

theorem countGo_nonpos {d : Int} (hd : ¬ d > 0) (ls : List Line) :
    countGo d ls = countGo 0 ls := by
  cases ls with
  | nil => rfl
  | cons l rest =>
    have h0 : ¬ (0:Int) > 0 := by omega
    simp only [countGo]
    rw [if_neg hd, if_neg h0]

theorem removeGo_nonpos {d : Int} (hd : ¬ d > 0) (ls : List Line) :
    removeGo d ls = removeGo 0 ls := by
  cases ls with
  | nil => rfl
  | cons l rest =>
    have h0 : ¬ (0:Int) > 0 := by omega
    simp only [removeGo]
    rw [if_neg hd, if_neg h0]

theorem removeGo_specConsume (ls : List Line) :
    ∀ d, removeGo d ls = removeGo 0 (specConsume ls d) := by
  induction ls with
  | nil => intro d; rfl
  | cons l rest ih =>
    intro d
    by_cases hd : d > 0
    · rw [show specConsume (l :: rest) d = specConsume rest (d + lineDelta l) by
        simp only [specConsume]; rw [if_neg (by omega)]]
      rw [show removeGo d (l :: rest) = removeGo (d + lineDelta l) rest by
        simp only [removeGo]; rw [if_pos hd]]
      exact ih _
    · rw [show specConsume (l :: rest) d = l :: rest by
        simp only [specConsume]; rw [if_pos (by omega)]]
      exact removeGo_nonpos hd _

theorem not_consoleStart_of_mem_removeGo (ls : List Line) :
    ∀ d l, l ∈ (removeGo d ls).1 → isConsoleStart l = false := by
  induction ls with
  | nil => intro d l h; simp [removeGo] at h
  | cons a rest ih =>
    intro d l h
    by_cases hd : d > 0
    · rw [show removeGo d (a :: rest) = removeGo (d + lineDelta a) rest by
        simp only [removeGo]; rw [if_pos hd]] at h
      exact ih _ l h
    · rw [removeGo_nonpos hd] at h
      by_cases hm : isConsoleStart a = true
      · by_cases hs : (a.contains ';' ||
            (a.contains ')' && decide (a.count '(' ≤ a.count ')'))) = true
        · rw [show removeGo 0 (a :: rest) =
              ((removeGo 0 rest).1, (removeGo 0 rest).2 + 1) by
            simp only [removeGo]; rw [if_neg (by omega : ¬ (0:Int) > 0),
              if_pos hm, if_pos hs]] at h
          exact ih 0 l h
        · rw [show removeGo 0 (a :: rest) =
              ((removeGo (lineDelta a) rest).1, (removeGo (lineDelta a) rest).2 + 1) by
            simp only [removeGo]; rw [if_neg (by omega : ¬ (0:Int) > 0),
              if_pos hm, if_neg hs]] at h
          exact ih _ l h
      · rw [show removeGo 0 (a :: rest) =
            (a :: (removeGo 0 rest).1, (removeGo 0 rest).2) by
          simp only [removeGo]; rw [if_neg (by omega : ¬ (0:Int) > 0), if_neg hm]] at h
        rcases List.mem_cons.mp h with h | h
        · subst h; exact Bool.not_eq_true _ ▸ (by simpa using hm)
        · exact ih 0 l h

theorem removeGo_fst_sublist (ls : List Line) :
    ∀ d, List.Sublist (removeGo d ls).1 ls := by
  induction ls with
  | nil => intro d; simp [removeGo]
  | cons a rest ih =>
    intro d
    by_cases hd : d > 0
    · rw [show removeGo d (a :: rest) = removeGo (d + lineDelta a) rest by
        simp only [removeGo]; rw [if_pos hd]]
      exact (ih _).cons a
    · rw [removeGo_nonpos hd]
      by_cases hm : isConsoleStart a = true
      · by_cases hs : (a.contains ';' ||
            (a.contains ')' && decide (a.count '(' ≤ a.count ')'))) = true
        · rw [show removeGo 0 (a :: rest) =
              ((removeGo 0 rest).1, (removeGo 0 rest).2 + 1) by
            simp only [removeGo]; rw [if_neg (by omega : ¬ (0:Int) > 0),
              if_pos hm, if_pos hs]]
          exact (ih 0).cons a
        · rw [show removeGo 0 (a :: rest) =
              ((removeGo (lineDelta a) rest).1, (removeGo (lineDelta a) rest).2 + 1) by
            simp only [removeGo]; rw [if_neg (by omega : ¬ (0:Int) > 0),
              if_pos hm, if_neg hs]]
          exact (ih _).cons a
      · rw [show removeGo 0 (a :: rest) =
            (a :: (removeGo 0 rest).1, (removeGo 0 rest).2) by
          simp only [removeGo]; rw [if_neg (by omega : ¬ (0:Int) > 0), if_neg hm]]
        exact (ih 0).cons₂ a

theorem removeGo_eq_of_no_match {ls : List Line}
    (h : ∀ l ∈ ls, isConsoleStart l = false) : removeGo 0 ls = (ls, 0) := by
  induction ls with
  | nil => rfl
  | cons a rest ih =>
    have ha : ¬ isConsoleStart a = true := by
      simp [h a (List.mem_cons_self a rest)]
    rw [show removeGo 0 (a :: rest) =
        (a :: (removeGo 0 rest).1, (removeGo 0 rest).2) by
      simp only [removeGo]; rw [if_neg (by omega : ¬ (0:Int) > 0), if_neg ha]]
    rw [ih (fun l hl => h l (List.mem_cons_of_mem a hl))]

theorem countGo_zero_iff (ls : List Line) :
    countGo 0 ls = 0 ↔ ∀ l ∈ ls, isConsoleStart l = false := by
  induction ls with
  | nil => simp [countGo]
  | cons a rest ih =>
    have h0 : ¬ (0:Int) > 0 := by omega
    by_cases hm : isConsoleStart a = true
    · constructor
      · intro h
        exfalso
        by_cases hmm : (a.contains '(' && !(a.contains ')')) = true
        · rw [show countGo 0 (a :: rest) = 1 + countGo (lineDelta a) rest by
            simp only [countGo]; rw [if_neg h0, if_pos hm, if_pos hmm]] at h
          omega
        · rw [show countGo 0 (a :: rest) = 1 + countGo 0 rest by
            simp only [countGo]; rw [if_neg h0, if_pos hm, if_neg hmm]] at h
          omega
      · intro h
        exact absurd (h a (List.mem_cons_self a rest)) (by simp [hm])
    · rw [show countGo 0 (a :: rest) = countGo 0 rest by
        simp only [countGo]; rw [if_neg h0, if_neg hm]]
      rw [ih]
      constructor
      · intro h l hl
        rcases List.mem_cons.mp hl with hl | hl
        · subst hl; simpa using hm
        · exact h l hl
      · intro h l hl
        exact h l (List.mem_cons_of_mem a hl)

theorem removeGo_snd_zero_iff (ls : List Line) :
    (removeGo 0 ls).2 = 0 ↔ ∀ l ∈ ls, isConsoleStart l = false := by
  induction ls with
  | nil => simp [removeGo]
  | cons a rest ih =>
    have h0 : ¬ (0:Int) > 0 := by omega
    by_cases hm : isConsoleStart a = true
    · constructor
      · intro h
        exfalso
        by_cases hs : (a.contains ';' ||
            (a.contains ')' && decide (a.count '(' ≤ a.count ')'))) = true
        · rw [show removeGo 0 (a :: rest) =
              ((removeGo 0 rest).1, (removeGo 0 rest).2 + 1) by
            simp only [removeGo]; rw [if_neg h0, if_pos hm, if_pos hs]] at h
          simp at h
        · rw [show removeGo 0 (a :: rest) =
              ((removeGo (lineDelta a) rest).1, (removeGo (lineDelta a) rest).2 + 1) by
            simp only [removeGo]; rw [if_neg h0, if_pos hm, if_neg hs]] at h
          simp at h
      · intro h
        exact absurd (h a (List.mem_cons_self a rest)) (by simp [hm])
    · rw [show removeGo 0 (a :: rest) =
          (a :: (removeGo 0 rest).1, (removeGo 0 rest).2) by
        simp only [removeGo]; rw [if_neg h0, if_neg hm]]
      rw [show ((a :: (removeGo 0 rest).1, (removeGo 0 rest).2) :
          List Line × Nat).2 = (removeGo 0 rest).2 from rfl]
      rw [ih]
      constructor
      · intro h l hl
        rcases List.mem_cons.mp hl with hl | hl
        · subst hl; simpa using hm
        · exact h l hl
      · intro h l hl
        exact h l (List.mem_cons_of_mem a hl)

theorem isConsoleStart_iff (l : Line) :
    isConsoleStart l = true ↔ specConsoleOpen l := by
  constructor
  · intro h
    simp only [isConsoleStart, Bool.and_eq_true, List.any_eq_true] at h
    obtain ⟨hp, n, hn, hb1, hb2⟩ := h
    obtain ⟨t, ht⟩ := List.isPrefixOf_iff_prefix.mp hp
    have hdrop : (l.dropWhile isPySpace).drop 8 = t := by
      rw [← ht]; exact List.drop_left' (by rfl)
    rw [hdrop] at hb1 hb2
    obtain ⟨u, hu⟩ := List.isPrefixOf_iff_prefix.mp hb1
    have hdrop2 : t.drop n.length = u := by
      rw [← hu]; exact List.drop_left _ _
    rw [hdrop2] at hb2
    have hb2h : (u.dropWhile isPySpace).head? = some '(' := by
      simpa using hb2
    obtain ⟨rest, hrest⟩ : ∃ rest, u.dropWhile isPySpace = '(' :: rest := by
      cases hud : u.dropWhile isPySpace with
      | nil => rw [hud] at hb2h; simp at hb2h
      | cons x r =>
        rw [hud] at hb2h
        simp only [List.head?] at hb2h
        exact ⟨r, by rw [Option.some.inj hb2h]⟩
    refine ⟨l.takeWhile isPySpace, n, u.takeWhile isPySpace, rest, hn, ?_, ?_, ?_⟩
    · intro c hc; exact List.mem_takeWhile_imp hc
    · intro c hc; exact List.mem_takeWhile_imp hc
    · have hu2 : u = u.takeWhile isPySpace ++ '(' :: rest := by
        conv_lhs => rw [← List.takeWhile_append_dropWhile isPySpace u, hrest]
      conv_lhs => rw [← List.takeWhile_append_dropWhile isPySpace l, ← ht, ← hu, hu2]
      simp [List.append_assoc]
  · rintro ⟨pre, n, mid, rest, hn, hpre, hmid, rfl⟩
    simp only [isConsoleStart, Bool.and_eq_true, List.any_eq_true]
    have hassoc : pre ++ "console.".toList ++ n ++ mid ++ '(' :: rest
        = pre ++ ("console.".toList ++ (n ++ (mid ++ '(' :: rest))) := by
      simp [List.append_assoc]
    have hcons : "console.".toList ++ (n ++ (mid ++ '(' :: rest))
        = 'c' :: ("onsole.".toList ++ (n ++ (mid ++ '(' :: rest))) := rfl
    have hdw : (pre ++ "console.".toList ++ n ++ mid ++ '(' :: rest).dropWhile isPySpace
        = "console.".toList ++ (n ++ (mid ++ '(' :: rest)) := by
      rw [hassoc, List.dropWhile_append_of_pos hpre, hcons,
        List.dropWhile_cons_of_neg (by decide)]
    rw [hdw]
    constructor
    · exact List.isPrefixOf_iff_prefix.mpr ⟨n ++ (mid ++ '(' :: rest), rfl⟩
    · refine ⟨n, hn, ?_⟩
      have hd8 : ("console.".toList ++ (n ++ (mid ++ '(' :: rest))).drop 8
          = n ++ (mid ++ '(' :: rest) := List.drop_left' (by rfl)
      rw [hd8]
      constructor
      · exact List.isPrefixOf_iff_prefix.mpr ⟨mid ++ '(' :: rest, rfl⟩
      · rw [List.drop_left, List.dropWhile_append_of_pos hmid,
          List.dropWhile_cons_of_neg (by decide)]
        rfl

theorem consoleStart_contains_paren {l : Line} (h : isConsoleStart l = true) :
    l.contains '(' = true := by
  obtain ⟨pre, n, mid, rest, hn, hpre, hmid, rfl⟩ := (isConsoleStart_iff l).mp h
  simp [List.contains, List.elem_eq_mem]

theorem consoleStart_count_paren_pos {l : Line} (h : isConsoleStart l = true) :
    0 < l.count '(' := by
  rw [List.count_pos_iff]
  have := consoleStart_contains_paren h
  simpa [List.contains, List.elem_eq_mem] using this

theorem countGo_eq_removeGo_snd {ls : List Line}
    (h : ∀ l ∈ ls, isConsoleStart l = true → agreeLine l) :
    ∀ d, countGo d ls = (removeGo d ls).2 := by
  induction ls with
  | nil => intro d; rfl
  | cons a rest ih =>
    intro d
    have hrest := fun l hl => h l (List.mem_cons_of_mem a hl)
    by_cases hd : d > 0
    · rw [show countGo d (a :: rest) = countGo (d + lineDelta a) rest by
        simp only [countGo]; rw [if_pos hd]]
      rw [show removeGo d (a :: rest) = removeGo (d + lineDelta a) rest by
        simp only [removeGo]; rw [if_pos hd]]
      exact ih hrest _
    · rw [countGo_nonpos hd, removeGo_nonpos hd]
      by_cases hm : isConsoleStart a = true
      · have ha : (a.contains '(' && !(a.contains ')')) =
            !(a.contains ';' ||
              (a.contains ')' && decide (a.count '(' ≤ a.count ')'))) :=
          h a (List.mem_cons_self a rest) hm
        by_cases hmm : (a.contains '(' && !(a.contains ')')) = true
        · have hs : (a.contains ';' ||
              (a.contains ')' && decide (a.count '(' ≤ a.count ')'))) = false := by
            rw [hmm] at ha
            exact (Bool.not_eq_true' _) ▸ ha.symm
          rw [show countGo 0 (a :: rest) = 1 + countGo (lineDelta a) rest by
            simp only [countGo]
            rw [if_neg (by omega : ¬ (0:Int) > 0), if_pos hm, if_pos hmm]]
          rw [show removeGo 0 (a :: rest) =
              ((removeGo (lineDelta a) rest).1, (removeGo (lineDelta a) rest).2 + 1) by
            simp only [removeGo]
            rw [if_neg (by omega : ¬ (0:Int) > 0), if_pos hm,
              if_neg ((Bool.not_eq_true _).symm ▸ hs)]]
          rw [show (((removeGo (lineDelta a) rest).1,
              (removeGo (lineDelta a) rest).2 + 1) : List Line × Nat).2
              = (removeGo (lineDelta a) rest).2 + 1 from rfl]
          rw [ih hrest (lineDelta a)]
          omega
        · have hmm2 : (a.contains '(' && !(a.contains ')')) = false := by
            cases hx : (a.contains '(' && !(a.contains ')')) with
            | true => exact absurd hx hmm
            | false => rfl
          have hs : (a.contains ';' ||
              (a.contains ')' && decide (a.count '(' ≤ a.count ')'))) = true := by
            rw [hmm2] at ha
            cases hcond : (a.contains ';' ||
                (a.contains ')' && decide (a.count '(' ≤ a.count ')'))) with
            | true => rfl
            | false => rw [hcond] at ha; simp at ha
          rw [show countGo 0 (a :: rest) = 1 + countGo 0 rest by
            simp only [countGo]
            rw [if_neg (by omega : ¬ (0:Int) > 0), if_pos hm,
              if_neg ((Bool.not_eq_true _).symm ▸ hmm2)]]
          rw [show removeGo 0 (a :: rest) =
              ((removeGo 0 rest).1, (removeGo 0 rest).2 + 1) by
            simp only [removeGo]
            rw [if_neg (by omega : ¬ (0:Int) > 0), if_pos hm, if_pos hs]]
          rw [show (((removeGo 0 rest).1, (removeGo 0 rest).2 + 1) :
              List Line × Nat).2 = (removeGo 0 rest).2 + 1 from rfl]
          rw [ih hrest 0]
          omega
      · rw [show countGo 0 (a :: rest) = countGo 0 rest by
          simp only [countGo]; rw [if_neg (by omega : ¬ (0:Int) > 0), if_neg hm]]
        rw [show removeGo 0 (a :: rest) =
            (a :: (removeGo 0 rest).1, (removeGo 0 rest).2) by
          simp only [removeGo]; rw [if_neg (by omega : ¬ (0:Int) > 0), if_neg hm]]
        exact ih hrest 0

theorem output_lines_clean (content : List Char) :
    ∀ l ∈ splitLines (remove_console_statements content).1,
      isConsoleStart l = false := by
  intro l hl
  have hfst : (remove_console_statements content).1
      = joinLines (removeLines (splitLines content)).1 := rfl
  rw [hfst] at hl
  cases hns : (removeLines (splitLines content)).1 with
  | nil =>
    rw [hns] at hl
    have : l = ([] : Line) := by simpa [joinLines, splitLines] using hl
    rw [this]; decide
  | cons a t =>
    rw [hns] at hl
    have hsub : List.Sublist (a :: t) (splitLines content) := by
      rw [← hns]; exact removeGo_fst_sublist _ 0
    have hnl : ∀ x ∈ (a :: t : List Line), '\n' ∉ x := fun x hx =>
      no_newline_of_mem_splitLines (hsub.subset hx)
    rw [splitLines_joinLines (by simp) hnl] at hl
    rw [← hns] at hl
    exact not_consoleStart_of_mem_removeGo _ 0 l hl

/-- C1 (counterexample): on the two-line input `console.log(f(x)` followed by
`console.log(y);` the Counter reports 2 statements while the Remover removes
only 1, so the two passes do not use the same span-skipping logic on every
input: the Counter treats any line containing a `)` as self-contained, while
the Remover still enters the multi-line skip when the open-paren count
exceeds the close-paren count. -/
theorem c1_count_remove_disagree :
    count_console_statements "console.log(f(x)\nconsole.log(y);".toList = 2 ∧
    (remove_console_statements "console.log(f(x)\nconsole.log(y);".toList).2 = 1 :=
  ⟨by decide, by decide⟩

/-- C1 (amended): the Counter and the Remover agree on what counts as one
statement for every input text in which each detector-matched line is put in
the same class by the Counter's multi-line test (`(` present and `)` absent)
and by the negation of the Remover's single-line test (`;` present, or `)`
present with open-count at most close-count). -/
theorem c1_counter_remover_agree (content : List Char)
    (h : ∀ l ∈ splitLines content, isConsoleStart l = true → agreeLine l) :
    count_console_statements content = (remove_console_statements content).2 :=
  countGo_eq_removeGo_snd h 0

/-- Witness for the amended C1 at a concrete two-line input. -/
theorem c1_counter_remover_agree_witness :
    (∀ l ∈ splitLines "console.log(1);\nkeep".toList,
      isConsoleStart l = true → agreeLine l) ∧
    count_console_statements "console.log(1);\nkeep".toList =
      (remove_console_statements "console.log(1);\nkeep".toList).2 :=
  ⟨by decide, c1_counter_remover_agree _ (by decide)⟩

/-- C2: the Remover is idempotent: applied to its own output it returns that
output unchanged and reports a removed count of 0. -/
theorem c2_remover_idempotent (content : List Char) :
    remove_console_statements (remove_console_statements content).1 =
      ((remove_console_statements content).1, 0) := by
  have hrm : removeLines (splitLines (remove_console_statements content).1) =
      (splitLines (remove_console_statements content).1, 0) :=
    removeGo_eq_of_no_match (output_lines_clean content)
  show (joinLines
      (removeLines (splitLines (remove_console_statements content).1)).1,
    (removeLines (splitLines (remove_console_statements content).1)).2) = _
  rw [hrm]
  simp [joinLines_splitLines]

/-- C3: the after-removal statement count is zero for every input, including
malformed ones: every line the Remover keeps fails the detector. -/
theorem c3_after_count_zero (content : List Char) :
    count_console_statements (remove_console_statements content).1 = 0 :=
  (countGo_zero_iff _).mpr (output_lines_clean content)

/-- C4 (counterexample): the line `log(1);` matches the claimed rule (one of
the five recognized identifiers followed, after optional whitespace, by an
opening parenthesis, ignoring leading whitespace) yet the Detector does not
match it: the code's pattern additionally requires the `console.` qualifier
before the name. -/
theorem c4_bare_name_not_detected :
    specBareOpen "log(1);".toList ∧
    isConsoleStart "log(1);".toList = false :=
  ⟨⟨[], "log".toList, [], "1);".toList, by decide,
    fun c hc => absurd hc (List.not_mem_nil c),
    fun c hc => absurd hc (List.not_mem_nil c), by decide⟩, by decide⟩

/-- C4 (amended): the Detector matches a line exactly when, ignoring leading
whitespace, it is the literal `console.` followed by one of the five
recognized identifiers, optional whitespace, and an opening parenthesis; in
particular a similarly named but distinct call is never matched, and on
content none of whose lines is matched the Remover removes nothing and
returns the content unchanged. -/
theorem c4_detector_characterization :
    (∀ l : Line, isConsoleStart l = true ↔ specConsoleOpen l) ∧
    (∀ content : List Char,
      (∀ l ∈ splitLines content, isConsoleStart l = false) →
        remove_console_statements content = (content, 0)) := by
  refine ⟨isConsoleStart_iff, ?_⟩
  intro content h
  have hrm : removeLines (splitLines content) = (splitLines content, 0) :=
    removeGo_eq_of_no_match h
  show (joinLines (removeLines (splitLines content)).1,
    (removeLines (splitLines content)).2) = _
  rw [hrm]
  simp [joinLines_splitLines]

/-- Witness for the amended C4: a line calling a similarly named method is
not matched and such content is returned unchanged; a genuine opening line
satisfies the declarative rule. -/
theorem c4_detector_characterization_witness :
    ((∀ l ∈ splitLines "obj.mylog(1);".toList, isConsoleStart l = false) ∧
      remove_console_statements "obj.mylog(1);".toList =
        ("obj.mylog(1);".toList, 0)) ∧
    specConsoleOpen "  console.debug (x".toList :=
  ⟨⟨by decide, c4_detector_characterization.2 _ (by decide)⟩,
   (c4_detector_characterization.1 _).mp (by decide)⟩

/-- C5: on every detected opening line the Remover removes exactly the span
prescribed by the spec's rule: the opening line alone when it contains a `;`
anywhere or its open-paren count is at most its close-paren count, and
otherwise the opening line together with the following lines consumed by the
depth counter (each adding its open-count minus close-count) until the depth
is no longer positive or the input is exhausted. -/
theorem c5_span_resolution (l : Line) (rest : List Line)
    (h : isConsoleStart l = true) :
    removeGo 0 (l :: rest) =
      ((removeGo 0 (specSpanRest l rest)).1,
       (removeGo 0 (specSpanRest l rest)).2 + 1) := by
  by_cases hs : (l.contains ';' ||
      (l.contains ')' && decide (l.count '(' ≤ l.count ')'))) = true
  · have hspec : specSpanRest l rest = rest := by
      have hc : (l.contains ';' || decide (l.count '(' ≤ l.count ')')) = true := by
        rcases Bool.or_eq_true_iff.mp hs with h1 | h2
        · exact Bool.or_eq_true_iff.mpr (Or.inl h1)
        · exact Bool.or_eq_true_iff.mpr (Or.inr (Bool.and_eq_true_iff.mp h2).2)
      unfold specSpanRest
      rw [if_pos hc]
    rw [hspec]
    rw [show removeGo 0 (l :: rest) =
        ((removeGo 0 rest).1, (removeGo 0 rest).2 + 1) by
      simp only [removeGo]
      rw [if_neg (by omega : ¬ (0:Int) > 0), if_pos h, if_pos hs]]
  · have hsf : (l.contains ';' ||
        (l.contains ')' && decide (l.count '(' ≤ l.count ')'))) = false := by
      cases hx : (l.contains ';' ||
          (l.contains ')' && decide (l.count '(' ≤ l.count ')'))) with
      | true => exact absurd hx hs
      | false => rfl
    have hcf : ¬ (l.contains ';' || decide (l.count '(' ≤ l.count ')')) = true := by
      intro hcond
      rcases Bool.or_eq_true_iff.mp hcond with h1 | h2
      · exact hs (Bool.or_eq_true_iff.mpr (Or.inl h1))
      · have hle : l.count '(' ≤ l.count ')' := of_decide_eq_true h2
        have hpos : 0 < l.count ')' :=
          lt_of_lt_of_le (consoleStart_count_paren_pos h) hle
        have hmem : (')') ∈ l := List.count_pos_iff.mp hpos
        have hcont : l.contains ')' = true := by
          simp [List.contains, List.elem_eq_mem, hmem]
        exact hs (Bool.or_eq_true_iff.mpr
          (Or.inr (Bool.and_eq_true_iff.mpr ⟨hcont, h2⟩)))
    have hspec : specSpanRest l rest = specConsume rest (lineDelta l) := by
      unfold specSpanRest
      rw [if_neg hcf]
    rw [hspec]
    rw [show removeGo 0 (l :: rest) =
        ((removeGo (lineDelta l) rest).1, (removeGo (lineDelta l) rest).2 + 1) by
      simp only [removeGo]
      rw [if_neg (by omega : ¬ (0:Int) > 0), if_pos h,
        if_neg ((Bool.not_eq_true _).symm ▸ hsf)]]
    rw [removeGo_specConsume rest (lineDelta l)]

/-- Witness for C5 at a concrete multi-line opening line. -/
theorem c5_span_resolution_witness :
    isConsoleStart "console.log(".toList = true ∧
    removeGo 0 ("console.log(".toList :: [")".toList, "after".toList]) =
      ((removeGo 0 (specSpanRest "console.log(".toList
          [")".toList, "after".toList])).1,
       (removeGo 0 (specSpanRest "console.log(".toList
          [")".toList, "after".toList])).2 + 1) :=
  ⟨by decide, c5_span_resolution _ _ (by decide)⟩

/-- C6: the Remover's output line sequence is a subsequence of the input
line sequence: retained lines keep their relative order and none of them is
modified. -/
theorem c6_retained_lines_sublist (content : List Char) :
    List.Sublist (removeLines (splitLines content)).1 (splitLines content) :=
  removeGo_fst_sublist _ 0

/-- C7: when the before-count is zero, `process_file` reports the counts
(0, 0), attempts no write, the disk content stays byte-identical, and
`main` prints the no-statements line for the returned pair. -/
theorem c7_clean_file_untouched (content : List Char) (b : Bool)
    (h : count_console_statements content = 0) :
    process_file ⟨some content, b⟩ = (0, 0, none) ∧
    diskAfter content (process_file ⟨some content, b⟩).2.2 = content ∧
    classify 0 0 = Report.noStatements := by
  have hp : process_file ⟨some content, b⟩ = (0, 0, none) := by
    unfold process_file
    simp [h]
  exact ⟨hp, by rw [hp]; rfl, by decide⟩

/-- Witness for C7 at a file with no recognized calls. -/
theorem c7_clean_file_untouched_witness :
    count_console_statements "var x = 1;".toList = 0 ∧
    (process_file ⟨some "var x = 1;".toList, false⟩ = (0, 0, none) ∧
     diskAfter "var x = 1;".toList
       (process_file ⟨some "var x = 1;".toList, false⟩).2.2 =
         "var x = 1;".toList ∧
     classify 0 0 = Report.noStatements) :=
  ⟨by decide, c7_clean_file_untouched _ false (by decide)⟩

/-- C8: a file on which a read or a write failure occurs — its read raises,
or its write raises (a write is attempted exactly when the before-count is
nonzero) — is reported with the sentinel pair (0, -1), lands on `main`'s
error line, and the batch aggregation (the `results` list and
`total_removed`) over the remaining files is exactly that of the batch
without it: one file's failure never aborts the batch and the errored file
is excluded from the success tally and the total. -/
theorem c8_batch_isolation (pre post : List FileModel) (f : FileModel)
    (hf : f.readResult = none ∨
      (f.writeFails = true ∧
        ∀ c, f.readResult = some c → count_console_statements c ≠ 0)) :
    process_file f = (0, -1, none) ∧
    classify 0 (-1) = Report.error ∧
    runBatch (pre ++ f :: post) = runBatch (pre ++ post) := by
  have hp : process_file f = (0, -1, none) := by
    rcases hf with hr | ⟨hw, hc⟩
    · unfold process_file
      rw [hr]
    · cases hrr : f.readResult with
      | none => unfold process_file; rw [hrr]
      | some c =>
        have hcc : count_console_statements c ≠ 0 := hc c hrr
        unfold process_file
        rw [hrr, hw]
        simp [hcc]
  refine ⟨hp, by decide, ?_⟩
  unfold runBatch
  rw [List.foldl_append, List.foldl_append]
  rw [show List.foldl batchStep (List.foldl batchStep ([], 0) pre) (f :: post)
      = List.foldl batchStep
          (batchStep (List.foldl batchStep ([], 0) pre) f) post
      from rfl]
  rw [show batchStep (List.foldl batchStep ([], 0) pre) f
      = List.foldl batchStep ([], 0) pre by
    unfold batchStep
    rw [hp]
    rfl]

/-- Witness for C8 exercising both failure modes: a file whose read raises,
inside a two-file batch, and a file with a removable statement whose write
raises. -/
theorem c8_batch_isolation_witness :
    (process_file ⟨none, false⟩ = (0, -1, none) ∧
     classify 0 (-1) = Report.error ∧
     runBatch ([⟨some "var a;".toList, false⟩] ++
         (⟨none, false⟩ : FileModel) :: [⟨some "var b;".toList, false⟩]) =
       runBatch ([⟨some "var a;".toList, false⟩] ++
         [⟨some "var b;".toList, false⟩])) ∧
    (process_file ⟨some "console.log(1);".toList, true⟩ = (0, -1, none) ∧
     classify 0 (-1) = Report.error ∧
     runBatch ([] ++ (⟨some "console.log(1);".toList, true⟩ : FileModel) :: []) =
       runBatch ([] ++ [])) :=
  ⟨c8_batch_isolation _ _ _ (Or.inl rfl),
   c8_batch_isolation _ _ _ (Or.inr ⟨rfl, fun c hc => by
     rw [← Option.some.inj hc]; decide⟩)⟩

/-- C10: the Remover removes zero statements exactly when the Counter counts
zero, so a file processed without an exception is never reported on `main`'s
per-file error line: that branch is reachable only through the -1 sentinel. -/
theorem c10_removed_zero_iff_count_zero (content : List Char) :
    ((remove_console_statements content).2 = 0 ↔
      count_console_statements content = 0) ∧
    classify (process_file ⟨some content, false⟩).1
      (process_file ⟨some content, false⟩).2.1 ≠ Report.error := by
  have hiff : (remove_console_statements content).2 = 0 ↔
      count_console_statements content = 0 := by
    show (removeGo 0 (splitLines content)).2 = 0 ↔
      countGo 0 (splitLines content) = 0
    rw [removeGo_snd_zero_iff, countGo_zero_iff]
  refine ⟨hiff, ?_⟩
  by_cases h : count_console_statements content = 0
  · have hp : process_file ⟨some content, false⟩ = (0, 0, none) := by
      unfold process_file
      simp [h]
    rw [hp]
    decide
  · have hp : process_file ⟨some content, false⟩ =
        ((count_console_statements content : Int),
         ((remove_console_statements content).2 : Int),
         some (remove_console_statements content).1) := by
      unfold process_file
      simp [h]
    rw [hp]
    have hrpos : (0:Int) < ((remove_console_statements content).2 : Int) := by
      have h2 : (remove_console_statements content).2 ≠ 0 := fun e => h (hiff.mp e)
      exact_mod_cast Nat.pos_of_ne_zero h2
    show classify ((count_console_statements content : Int))
      (((remove_console_statements content).2 : Int)) ≠ Report.error
    unfold classify
    rw [if_pos hrpos]
    decide

end RCL
